import Mathlib

/-!
Shallow embedding of the IMPALA learning core of this repository: the V-trace
off-policy correction (src/VTrace.py) and the loss aggregation (src/IMPALA.py).

A tensor of shape (time, batch) is modelled as a list of rows indexed by time,
a row being a function from batch indices to real numbers.  Floating-point
arithmetic is modelled by exact real arithmetic; torch.exp becomes Real.exp
and torch.min becomes min.  Python assertion failures and torch runtime shape
errors are modelled by Except values using the error taxonomy of the design
(ConfigurationError, ShapeMismatch) plus TypeError for Python keyword-argument
binding failures.  Device placement (.cuda(), .cpu(), .to(device)) moves data
without changing values and is not modelled.
-/

namespace VTraceModel

/-- One time step of a (time, batch) tensor: a real value per batch element. -/
abbrev Row (B : ℕ) : Type := Fin B → ℝ

/-- A (time, batch) tensor: a list of batch rows indexed by time. -/
abbrev Tensor (B : ℕ) : Type := List (Row B)

/-- The all-zero row, used as the out-of-range default when indexing a tensor. -/
def zRow (B : ℕ) : Row B := fun _ => 0

/-- Error taxonomy: ConfigurationError and ShapeMismatch from the design
(assertion failures and torch runtime shape errors respectively), and
TypeError for a Python keyword-argument binding failure. -/
inductive PyError where
  | configurationError
  | shapeMismatch
  | typeError
deriving DecidableEq

/-- The VTrace module of src/VTrace.py: the three scalar fields stored by
VTrace.__init__. -/
structure VTrace where
  discount_factor : ℝ
  rho : ℝ
  cis : ℝ

/-- VTrace.__init__ (src/VTrace.py lines 24-30): asserts rho >= cis before
storing the three scalars; the assertion failure is the ConfigurationError of
the design taxonomy. -/
noncomputable def VTrace.init (discount_factor rho cis : ℝ) :
    Except PyError VTrace :=
  if rho ≥ cis then .ok ⟨discount_factor, rho, cis⟩
  else .error .configurationError

/-- Line 64 of src/VTrace.py: torch.exp(target_log_policy - behaviour_log_policy),
elementwise over matching time steps and batch elements. -/
noncomputable def importanceSampling {B : ℕ} (tl bl : Tensor B) : Tensor B :=
  List.zipWith (fun t u => fun b => Real.exp (t b - u b)) tl bl

/-- Lines 65-66 of src/VTrace.py: torch.min(bar, w) elementwise, truncating an
importance-sampling tensor at a scalar level. -/
noncomputable def truncate {B : ℕ} (bar : ℝ) (w : Tensor B) : Tensor B :=
  w.map (fun r => fun b => min bar (r b))

/-- The backward recursion of src/VTrace.py lines 72-75, as a structural
recursion on the time axis: the Python loop fills the output buffer from the
last index down, so the value at time i is a function of the suffix starting
at i+1; the singleton tail is the bootstrap row vtrace[-1] = target_value[-1].
Arguments: discount factor, target_value, rewards, rhos, ciss.  On inputs
where the Python loop would raise an IndexError (rewards or truncated weights
exhausted before target_value), the recursion stops early instead; the
Except-valued wrapper VTrace.forwardE screens out exactly those inputs. -/
noncomputable def vtraceRec {B : ℕ} (γ : ℝ) :
    Tensor B → Tensor B → Tensor B → Tensor B → Tensor B
  | v :: v1 :: tvr, r :: rwr, p :: pr, c :: cr =>
      let rest := vtraceRec γ (v1 :: tvr) rwr pr cr
      (fun b => v b + p b * (r b + γ * v1 b - v b)
          + γ * c b * (rest.headD (zRow B) b - v1 b)) :: rest
  | tv, _, _, _ => tv

/-- VTrace.forward (src/VTrace.py lines 33-78) as a pure value computation:
importance sampling from the log-policy difference, truncation at rho and cis,
then the backward recursion; returns (vtrace, rhos).  The in-place detach_ on
the returned tensors changes no values. -/
noncomputable def VTrace.forward {B : ℕ} (m : VTrace)
    (target_value rewards target_log_policy behaviour_log_policy : Tensor B) :
    Tensor B × Tensor B :=
  let w := importanceSampling target_log_policy behaviour_log_policy
  let rhos := truncate m.rho w
  let ciss := truncate m.cis w
  (vtraceRec m.discount_factor target_value rewards rhos ciss, rhos)

/-- VTrace.forward including its runtime failure conditions.  The source
performs no explicit shape validation; a call fails only when execution hits
an inconsistency: the elementwise subtraction on line 64 requires the two
log-policy tensors to have the same number of time steps, line 72 requires a
nonempty target_value, and the loop of lines 73-75 indexes rewards[i] and
rhos[i] (and ciss[i], of the same length as rhos) for every i below
target_value.length - 1.  All such failures are ShapeMismatch in the design
taxonomy.  Broadcasting of size-one time dimensions is not modelled; batch
sizes agree by construction of the Tensor type. -/
noncomputable def VTrace.forwardE {B : ℕ} (m : VTrace)
    (target_value rewards target_log_policy behaviour_log_policy : Tensor B) :
    Except PyError (Tensor B × Tensor B) :=
  if target_log_policy.length = behaviour_log_policy.length
      ∧ 0 < target_value.length
      ∧ target_value.length - 1 ≤ rewards.length
      ∧ target_value.length - 1 ≤ target_log_policy.length then
    .ok (m.forward target_value rewards target_log_policy behaviour_log_policy)
  else .error .shapeMismatch

/-- Shape preconditions of the V-trace contract: target_value carries T+1 time
steps, the other three inputs T time steps, over a shared batch size B. -/
def ValidSegment (T B : ℕ) (tv rw tl bl : Tensor B) : Prop :=
  tv.length = T + 1 ∧ rw.length = T ∧ tl.length = T ∧ bl.length = T

/-! ### Indexing helper lemmas -/

theorem headD_eq_getD {α : Type} (l : List α) (d : α) : l.headD d = l.getD 0 d := by
  cases l <;> rfl

theorem getD_tail {α : Type} (l : List α) (d : α) (i : ℕ) :
    l.tail.getD i d = l.getD (i + 1) d := by
  cases l <;> simp [List.getD_nil]

theorem getD_dropLast {α : Type} (l : List α) (d : α) (i : ℕ) (h : i < l.length - 1) :
    l.dropLast.getD i d = l.getD i d := by
  have h1 : i < l.dropLast.length := by simpa [List.length_dropLast] using h
  have h2 : i < l.length := lt_of_lt_of_le h (Nat.sub_le _ _)
  rw [List.getD_eq_getElem _ _ h1, List.getD_eq_getElem _ _ h2, List.getElem_dropLast]

theorem getD_zipWith {α : Type} (f : α → α → α) (d : α) :
    ∀ (x y : List α) (i : ℕ), i < x.length → i < y.length →
      (List.zipWith f x y).getD i d = f (x.getD i d) (y.getD i d)
  | _ :: _, _ :: _, 0, _, _ => rfl
  | a :: xs, b :: ys, i + 1, hx, hy => by
      simpa using getD_zipWith f d xs ys i (Nat.lt_of_succ_lt_succ hx)
        (Nat.lt_of_succ_lt_succ hy)

theorem getD_map_row {B : ℕ} (g : Row B → Row B) :
    ∀ (x : Tensor B) (i : ℕ), i < x.length →
      (x.map g).getD i (zRow B) = g (x.getD i (zRow B))
  | _ :: _, 0, _ => rfl
  | a :: xs, i + 1, h => by
      simpa using getD_map_row g xs i (Nat.lt_of_succ_lt_succ h)

/-- The truncated weights at a time step below T, unfolded to the min-of-exp
form of the specification. -/
theorem truncate_getD {B : ℕ} (bar : ℝ) (tl bl : Tensor B) (i : ℕ)
    (htl : i < tl.length) (hbl : i < bl.length) (b : Fin B) :
    (truncate bar (importanceSampling tl bl)).getD i (zRow B) b
      = min bar (Real.exp (tl.getD i (zRow B) b - bl.getD i (zRow B) b)) := by
  have hw : i < (importanceSampling tl bl).length := by
    simp [importanceSampling, List.length_zipWith]; omega
  rw [truncate, getD_map_row _ _ _ hw, importanceSampling,
    getD_zipWith _ _ _ _ _ htl hbl]

/-! ### Structure lemmas for the backward recursion -/

theorem vtraceRec_length {B : ℕ} (γ : ℝ) :
    ∀ (tv rw p c : Tensor B), (vtraceRec γ tv rw p c).length = tv.length
  | v :: v1 :: tvr, r :: rwr, pp :: pr, cc :: cr => by
      have ih := vtraceRec_length γ (v1 :: tvr) rwr pr cr
      simp only [List.length_cons] at ih
      simp only [vtraceRec, List.length_cons]
      omega
  | [], _, _, _ => by cases ‹Tensor B› <;> rfl
  | [v], rw, p, c => by cases rw <;> cases p <;> cases c <;> rfl
  | v :: v1 :: tvr, [], p, c => by cases p <;> cases c <;> rfl
  | v :: v1 :: tvr, r :: rwr, [], c => by cases c <;> rfl
  | v :: v1 :: tvr, r :: rwr, pp :: pr, [] => rfl

/-- The Python loop never touches the last buffer entry after the bootstrap
assignment: the final row of the output is the final row of target_value. -/
theorem vtraceRec_getD_last {B : ℕ} (γ : ℝ) :
    ∀ (tv rw p c : Tensor B), tv.length = rw.length + 1 →
      (vtraceRec γ tv rw p c).getD rw.length (zRow B)
        = tv.getD rw.length (zRow B)
  | [v], [], p, c, _ => by cases p <;> cases c <;> rfl
  | v :: v1 :: tvr, r :: rwr, [], c, h => by rfl
  | v :: v1 :: tvr, r :: rwr, pp :: pr, [], h => by rfl
  | v :: v1 :: tvr, r :: rwr, pp :: pr, cc :: cr, h => by
      have ih := vtraceRec_getD_last γ (v1 :: tvr) rwr pr cr (by
        simpa using h)
      simpa [vtraceRec] using ih

/-- The defining property of the backward loop, index by index: for every time
step i below T the output row satisfies the v-trace recurrence in terms of the
already-computed row at i+1. -/
theorem vtraceRec_getD {B : ℕ} (γ : ℝ) (rw : Tensor B) :
    ∀ (tv p c : Tensor B), tv.length = rw.length + 1 →
      rw.length ≤ p.length → rw.length ≤ c.length →
      ∀ i, i < rw.length → ∀ (b : Fin B),
      (vtraceRec γ tv rw p c).getD i (zRow B) b
        = tv.getD i (zRow B) b
          + p.getD i (zRow B) b *
              (rw.getD i (zRow B) b + γ * tv.getD (i + 1) (zRow B) b
                - tv.getD i (zRow B) b)
          + γ * c.getD i (zRow B) b *
              ((vtraceRec γ tv rw p c).getD (i + 1) (zRow B) b
                - tv.getD (i + 1) (zRow B) b) := by
  induction rw with
  | nil =>
      intro tv p c h hp hc i hi b
      exact absurd hi (by simp)
  | cons r rwr ih =>
      intro tv p c h hp hc i hi b
      match tv, p, c with
      | [], _, _ => simp at h
      | [v], _, _ => simp at h
      | v :: v1 :: tvr, [], _ => simp at hp
      | v :: v1 :: tvr, pp :: pr, [] => simp at hc
      | v :: v1 :: tvr, pp :: pr, cc :: cr =>
        simp only [List.length_cons] at h hp hc hi
        cases i with
        | zero =>
            simp only [vtraceRec, List.getD_cons_zero, List.getD_cons_succ,
              headD_eq_getD]
        | succ i =>
            have step := ih (v1 :: tvr) pr cr (by simp only [List.length_cons]; omega)
              (by omega) (by omega) i (by omega) b
            simpa only [vtraceRec, List.getD_cons_succ] using step

/-- C1: for every valid segment the v_targets returned by VTrace.forward
satisfy, at each time step i below T and each batch element, the v-trace
recurrence v[i] = V[i] + rho[i]*(r[i] + gamma*V[i+1] - V[i])
+ gamma*c[i]*(v[i+1] - V[i+1]) with rho[i] = min(rho_bar, w[i]),
c[i] = min(cis_bar, w[i]) and w[i] = exp(target_log_policy[i] -
behaviour_log_policy[i]), computed backward in time from the bootstrap row. -/
theorem vtrace_recursion_step (m : VTrace) {B T : ℕ} (tv rw tl bl : Tensor B)
    (h : ValidSegment T B tv rw tl bl) (i : ℕ) (hi : i < T) (b : Fin B) :
    (m.forward tv rw tl bl).1.getD i (zRow B) b
      = tv.getD i (zRow B) b
        + min m.rho (Real.exp (tl.getD i (zRow B) b - bl.getD i (zRow B) b))
          * (rw.getD i (zRow B) b + m.discount_factor * tv.getD (i + 1) (zRow B) b
              - tv.getD i (zRow B) b)
        + m.discount_factor
          * min m.cis (Real.exp (tl.getD i (zRow B) b - bl.getD i (zRow B) b))
          * ((m.forward tv rw tl bl).1.getD (i + 1) (zRow B) b
              - tv.getD (i + 1) (zRow B) b) := by
  obtain ⟨htv, hrw, htl, hbl⟩ := h
  have e1 : (m.forward tv rw tl bl).1
      = vtraceRec m.discount_factor tv rw
          (truncate m.rho (importanceSampling tl bl))
          (truncate m.cis (importanceSampling tl bl)) := rfl
  have hlenw : (importanceSampling tl bl).length = T := by
    simp [importanceSampling, List.length_zipWith, htl, hbl]
  have hlenρ : (truncate m.rho (importanceSampling tl bl)).length = T := by
    simp [truncate, hlenw]
  have hlenc : (truncate m.cis (importanceSampling tl bl)).length = T := by
    simp [truncate, hlenw]
  have main := vtraceRec_getD m.discount_factor rw tv
    (truncate m.rho (importanceSampling tl bl))
    (truncate m.cis (importanceSampling tl bl))
    (by omega) (by omega) (by omega) i (by omega) b
  rw [truncate_getD m.rho tl bl i (by omega) (by omega) b,
    truncate_getD m.cis tl bl i (by omega) (by omega) b] at main
  rw [e1]
  exact main

/-- Concrete instance of the C1 theorem at T = 1, B = 1 with all-zero inputs. -/
theorem vtrace_recursion_step_witness :
    ValidSegment 1 1 [zRow 1, zRow 1] [zRow 1] [zRow 1] [zRow 1]
    ∧ 0 < 1
    ∧ ((VTrace.mk 0.9 1 1).forward [zRow 1, zRow 1] [zRow 1] [zRow 1] [zRow 1]).1.getD
          0 (zRow 1) 0
        = ([zRow 1, zRow 1] : Tensor 1).getD 0 (zRow 1) 0
          + min (VTrace.mk 0.9 1 1).rho
              (Real.exp (([zRow 1] : Tensor 1).getD 0 (zRow 1) 0
                - ([zRow 1] : Tensor 1).getD 0 (zRow 1) 0))
            * (([zRow 1] : Tensor 1).getD 0 (zRow 1) 0
                + (VTrace.mk 0.9 1 1).discount_factor
                  * ([zRow 1, zRow 1] : Tensor 1).getD 1 (zRow 1) 0
                - ([zRow 1, zRow 1] : Tensor 1).getD 0 (zRow 1) 0)
          + (VTrace.mk 0.9 1 1).discount_factor
            * min (VTrace.mk 0.9 1 1).cis
              (Real.exp (([zRow 1] : Tensor 1).getD 0 (zRow 1) 0
                - ([zRow 1] : Tensor 1).getD 0 (zRow 1) 0))
            * (((VTrace.mk 0.9 1 1).forward [zRow 1, zRow 1] [zRow 1] [zRow 1]
                  [zRow 1]).1.getD 1 (zRow 1) 0
                - ([zRow 1, zRow 1] : Tensor 1).getD 1 (zRow 1) 0) :=
  ⟨⟨rfl, rfl, rfl, rfl⟩, Nat.zero_lt_one,
    vtrace_recursion_step (VTrace.mk 0.9 1 1) [zRow 1, zRow 1] [zRow 1] [zRow 1]
      [zRow 1] ⟨rfl, rfl, rfl, rfl⟩ 0 Nat.zero_lt_one 0⟩

/-- C2: for every valid segment the final row of the returned v_targets equals
the final row of target_value exactly: the bootstrap base case applies no
correction to the last time step. -/
theorem vtrace_bootstrap_identity (m : VTrace) {B T : ℕ} (tv rw tl bl : Tensor B)
    (h : ValidSegment T B tv rw tl bl) (b : Fin B) :
    (m.forward tv rw tl bl).1.getD T (zRow B) b = tv.getD T (zRow B) b := by
  obtain ⟨htv, hrw, _, _⟩ := h
  have e1 : (m.forward tv rw tl bl).1
      = vtraceRec m.discount_factor tv rw
          (truncate m.rho (importanceSampling tl bl))
          (truncate m.cis (importanceSampling tl bl)) := rfl
  have main := vtraceRec_getD_last m.discount_factor tv rw
    (truncate m.rho (importanceSampling tl bl))
    (truncate m.cis (importanceSampling tl bl)) (by omega)
  rw [e1, ← hrw]
  exact congrFun main b

/-- Concrete instance of the C2 theorem at T = 1, B = 1. -/
theorem vtrace_bootstrap_identity_witness :
    ValidSegment 1 1 [zRow 1, fun _ => (2:ℝ)] [zRow 1] [zRow 1] [zRow 1]
    ∧ ((VTrace.mk 0.9 1 1).forward [zRow 1, fun _ => (2:ℝ)] [zRow 1] [zRow 1]
          [zRow 1]).1.getD 1 (zRow 1) 0
        = ([zRow 1, fun _ => (2:ℝ)] : Tensor 1).getD 1 (zRow 1) 0 :=
  ⟨⟨rfl, rfl, rfl, rfl⟩,
    vtrace_bootstrap_identity (VTrace.mk 0.9 1 1) [zRow 1, fun _ => (2:ℝ)]
      [zRow 1] [zRow 1] [zRow 1] ⟨rfl, rfl, rfl, rfl⟩ 0⟩

/-- When every truncated weight equals one, the backward recursion computes
the standard n-step bootstrapped return. -/
theorem vtraceRec_nstep {B : ℕ} (γ : ℝ) (rw : Tensor B) :
    ∀ (tv p c : Tensor B), tv.length = rw.length + 1 →
      rw.length ≤ p.length → rw.length ≤ c.length →
      (∀ i, i < rw.length → ∀ b, p.getD i (zRow B) b = 1) →
      (∀ i, i < rw.length → ∀ b, c.getD i (zRow B) b = 1) →
      ∀ i, i < rw.length → ∀ (b : Fin B),
      (vtraceRec γ tv rw p c).getD i (zRow B) b
        = (∑ k ∈ Finset.range (rw.length - i), γ ^ k * rw.getD (i + k) (zRow B) b)
          + γ ^ (rw.length - i) * tv.getD rw.length (zRow B) b := by
  induction rw with
  | nil =>
      intro tv p c h hp hc hp1 hc1 i hi b
      exact absurd hi (by simp)
  | cons r rwr ih =>
      intro tv p c h hp hc hp1 hc1 i hi b
      match tv, p, c with
      | [], _, _ => simp at h
      | [v], _, _ => simp at h
      | v :: v1 :: tvr, [], _ => simp at hp
      | v :: v1 :: tvr, pp :: pr, [] => simp at hc
      | v :: v1 :: tvr, pp :: pr, cc :: cr =>
        simp only [List.length_cons] at h hp hc hi
        have h' : (v1 :: tvr).length = rwr.length + 1 := by
          simp only [List.length_cons]; omega
        have hp' : rwr.length ≤ pr.length := by omega
        have hc' : rwr.length ≤ cr.length := by omega
        have hp1' : ∀ j, j < rwr.length → ∀ b', pr.getD j (zRow B) b' = 1 := by
          intro j hj b'
          have := hp1 (j + 1) (by simp only [List.length_cons]; omega) b'
          simpa using this
        have hc1' : ∀ j, j < rwr.length → ∀ b', cr.getD j (zRow B) b' = 1 := by
          intro j hj b'
          have := hc1 (j + 1) (by simp only [List.length_cons]; omega) b'
          simpa using this
        cases i with
        | zero =>
            have hpp : pp b = 1 := by
              simpa using hp1 0 (by simp) b
            have hcc : cc b = 1 := by
              simpa using hc1 0 (by simp) b
            have hrest : (vtraceRec γ (v1 :: tvr) rwr pr cr).getD 0 (zRow B) b
                = (∑ k ∈ Finset.range rwr.length,
                      γ ^ k * rwr.getD k (zRow B) b)
                  + γ ^ rwr.length * (v1 :: tvr).getD rwr.length (zRow B) b := by
              cases rwr with
              | nil =>
                  simpa using
                    congrFun (vtraceRec_getD_last γ (v1 :: tvr) [] pr cr h') b
              | cons r2 rwr2 =>
                  have := ih (v1 :: tvr) pr cr h' hp' hc' hp1' hc1' 0 (by simp) b
                  simpa using this
            simp only [vtraceRec, List.getD_cons_zero, List.getD_cons_succ,
              headD_eq_getD, hpp, hcc, hrest]
            simp only [List.length_cons, Nat.sub_zero, zero_add]
            rw [Finset.sum_range_succ']
            simp only [List.getD_cons_succ, List.getD_cons_zero, pow_zero, one_mul]
            have hγS : γ * (∑ k ∈ Finset.range rwr.length,
                  γ ^ k * rwr.getD k (zRow B) b)
                = ∑ k ∈ Finset.range rwr.length,
                    γ ^ (k + 1) * rwr.getD k (zRow B) b := by
              rw [Finset.mul_sum]
              exact Finset.sum_congr rfl fun k _ => by ring
            rw [← hγS]
            ring
        | succ i =>
            have step := ih (v1 :: tvr) pr cr h' hp' hc' hp1' hc1' i (by omega) b
            have hsum : (∑ k ∈ Finset.range (rwr.length - i),
                  γ ^ k * rwr.getD (i + k) (zRow B) b)
                = ∑ k ∈ Finset.range ((r :: rwr).length - (i + 1)),
                    γ ^ k * (r :: rwr).getD (i + 1 + k) (zRow B) b := by
              simp only [List.length_cons, Nat.succ_sub_succ]
              refine Finset.sum_congr rfl fun k _ => ?_
              have hik : i + 1 + k = (i + k) + 1 := by omega
              rw [hik, List.getD_cons_succ]
            rw [hsum] at step
            simpa only [vtraceRec, List.getD_cons_succ, List.length_cons,
              Nat.succ_sub_succ] using step

/-- C3: on-policy reduction.  When the target and behaviour log-policies
agree everywhere and both truncation levels are at least one, every truncated
weight equals min(rho_bar,1) = min(cis_bar,1) = 1 and the v-trace targets
reduce to the standard n-step bootstrapped return. -/
theorem vtrace_onpolicy_reduction (m : VTrace) {B T : ℕ} (tv rw tl bl : Tensor B)
    (h : ValidSegment T B tv rw tl bl) (heq : tl = bl)
    (hρ : 1 ≤ m.rho) (hcis : 1 ≤ m.cis)
    (i : ℕ) (hi : i < T) (b : Fin B) :
    (m.forward tv rw tl bl).2.getD i (zRow B) b = 1
    ∧ (truncate m.cis (importanceSampling tl bl)).getD i (zRow B) b = 1
    ∧ min m.rho 1 = 1
    ∧ min m.cis 1 = 1
    ∧ (m.forward tv rw tl bl).1.getD i (zRow B) b
        = (∑ k ∈ Finset.range (T - i),
              m.discount_factor ^ k * rw.getD (i + k) (zRow B) b)
          + m.discount_factor ^ (T - i) * tv.getD T (zRow B) b := by
  subst heq
  obtain ⟨htv, hrw, htl, _⟩ := h
  have hw : ∀ j, j < T → ∀ (b' : Fin B),
      (truncate m.rho (importanceSampling tl tl)).getD j (zRow B) b' = 1 := by
    intro j hj b'
    rw [truncate_getD m.rho tl tl j (by omega) (by omega) b']
    simp [min_eq_right hρ]
  have hcw : ∀ j, j < T → ∀ (b' : Fin B),
      (truncate m.cis (importanceSampling tl tl)).getD j (zRow B) b' = 1 := by
    intro j hj b'
    rw [truncate_getD m.cis tl tl j (by omega) (by omega) b']
    simp [min_eq_right hcis]
  have e1 : (m.forward tv rw tl tl).1
      = vtraceRec m.discount_factor tv rw
          (truncate m.rho (importanceSampling tl tl))
          (truncate m.cis (importanceSampling tl tl)) := rfl
  have e2 : (m.forward tv rw tl tl).2
      = truncate m.rho (importanceSampling tl tl) := rfl
  have hlenw : (importanceSampling tl tl).length = T := by
    simp [importanceSampling, List.length_zipWith, htl]
  have hlenρ : (truncate m.rho (importanceSampling tl tl)).length = T := by
    simp [truncate, hlenw]
  have hlenc : (truncate m.cis (importanceSampling tl tl)).length = T := by
    simp [truncate, hlenw]
  refine ⟨by rw [e2]; exact hw i hi b, hcw i hi b,
    min_eq_right hρ, min_eq_right hcis, ?_⟩
  have step := vtraceRec_nstep m.discount_factor rw tv
    (truncate m.rho (importanceSampling tl tl))
    (truncate m.cis (importanceSampling tl tl))
    (by omega) (by omega) (by omega)
    (by intro j hj b'; exact hw j (by omega) b')
    (by intro j hj b'; exact hcw j (by omega) b')
    i (by omega) b
  rw [hrw] at step
  rw [e1]
  exact step

/-- Concrete instance of the C3 theorem at T = 1, B = 1 with all-zero inputs
and truncation levels rho_bar = cis_bar = 1. -/
theorem vtrace_onpolicy_reduction_witness :
    ValidSegment 1 1 [zRow 1, zRow 1] [zRow 1] [zRow 1] [zRow 1]
    ∧ ([zRow 1] : Tensor 1) = [zRow 1]
    ∧ (1:ℝ) ≤ (VTrace.mk 0.9 1 1).rho
    ∧ (1:ℝ) ≤ (VTrace.mk 0.9 1 1).cis
    ∧ 0 < 1
    ∧ (((VTrace.mk 0.9 1 1).forward [zRow 1, zRow 1] [zRow 1] [zRow 1]
            [zRow 1]).2.getD 0 (zRow 1) 0 = 1
        ∧ (truncate (VTrace.mk 0.9 1 1).cis
            (importanceSampling [zRow 1] [zRow 1])).getD 0 (zRow 1) 0 = 1
        ∧ min (VTrace.mk 0.9 1 1).rho 1 = 1
        ∧ min (VTrace.mk 0.9 1 1).cis 1 = 1
        ∧ ((VTrace.mk 0.9 1 1).forward [zRow 1, zRow 1] [zRow 1] [zRow 1]
              [zRow 1]).1.getD 0 (zRow 1) 0
            = (∑ k ∈ Finset.range (1 - 0),
                  (VTrace.mk 0.9 1 1).discount_factor ^ k
                    * ([zRow 1] : Tensor 1).getD (0 + k) (zRow 1) 0)
              + (VTrace.mk 0.9 1 1).discount_factor ^ (1 - 0)
                * ([zRow 1, zRow 1] : Tensor 1).getD 1 (zRow 1) 0) :=
  ⟨⟨rfl, rfl, rfl, rfl⟩, rfl, by norm_num, by norm_num, Nat.zero_lt_one,
    vtrace_onpolicy_reduction (VTrace.mk 0.9 1 1) [zRow 1, zRow 1] [zRow 1]
      [zRow 1] [zRow 1] ⟨rfl, rfl, rfl, rfl⟩ rfl (by norm_num) (by norm_num)
      0 Nat.zero_lt_one 0⟩

/-- C4: truncation bounds.  With 0 < cis_bar <= rho_bar, every returned rho
weight lies in [0, rho_bar], every cis weight lies in [0, cis_bar], and the
cis weight never exceeds the rho weight at the same step. -/
theorem vtrace_truncation_bounds (m : VTrace) {B T : ℕ} (tv rw tl bl : Tensor B)
    (h : ValidSegment T B tv rw tl bl) (hpos : 0 < m.cis) (hrc : m.cis ≤ m.rho)
    (i : ℕ) (hi : i < T) (b : Fin B) :
    0 ≤ (m.forward tv rw tl bl).2.getD i (zRow B) b
    ∧ (m.forward tv rw tl bl).2.getD i (zRow B) b ≤ m.rho
    ∧ 0 ≤ (truncate m.cis (importanceSampling tl bl)).getD i (zRow B) b
    ∧ (truncate m.cis (importanceSampling tl bl)).getD i (zRow B) b ≤ m.cis
    ∧ (truncate m.cis (importanceSampling tl bl)).getD i (zRow B) b
        ≤ (m.forward tv rw tl bl).2.getD i (zRow B) b := by
  obtain ⟨htv, hrw, htl, hbl⟩ := h
  have e2 : (m.forward tv rw tl bl).2
      = truncate m.rho (importanceSampling tl bl) := rfl
  rw [e2, truncate_getD m.rho tl bl i (by omega) (by omega) b,
    truncate_getD m.cis tl bl i (by omega) (by omega) b]
  have hexp : (0:ℝ) ≤ Real.exp (tl.getD i (zRow B) b - bl.getD i (zRow B) b) :=
    (Real.exp_pos _).le
  exact ⟨le_min (hpos.le.trans hrc) hexp, min_le_left _ _,
    le_min hpos.le hexp, min_le_left _ _, min_le_min hrc le_rfl⟩

/-- Concrete instance of the C4 theorem at T = 1, B = 1 with
rho_bar = 2 and cis_bar = 1. -/
theorem vtrace_truncation_bounds_witness :
    ValidSegment 1 1 [zRow 1, zRow 1] [zRow 1] [zRow 1] [zRow 1]
    ∧ (0:ℝ) < (VTrace.mk 0.9 2 1).cis
    ∧ (VTrace.mk 0.9 2 1).cis ≤ (VTrace.mk 0.9 2 1).rho
    ∧ 0 < 1
    ∧ (0 ≤ ((VTrace.mk 0.9 2 1).forward [zRow 1, zRow 1] [zRow 1] [zRow 1]
            [zRow 1]).2.getD 0 (zRow 1) 0
        ∧ ((VTrace.mk 0.9 2 1).forward [zRow 1, zRow 1] [zRow 1] [zRow 1]
            [zRow 1]).2.getD 0 (zRow 1) 0 ≤ (VTrace.mk 0.9 2 1).rho
        ∧ 0 ≤ (truncate (VTrace.mk 0.9 2 1).cis
            (importanceSampling [zRow 1] [zRow 1])).getD 0 (zRow 1) 0
        ∧ (truncate (VTrace.mk 0.9 2 1).cis
            (importanceSampling [zRow 1] [zRow 1])).getD 0 (zRow 1) 0
            ≤ (VTrace.mk 0.9 2 1).cis
        ∧ (truncate (VTrace.mk 0.9 2 1).cis
            (importanceSampling [zRow 1] [zRow 1])).getD 0 (zRow 1) 0
            ≤ ((VTrace.mk 0.9 2 1).forward [zRow 1, zRow 1] [zRow 1] [zRow 1]
                [zRow 1]).2.getD 0 (zRow 1) 0) :=
  ⟨⟨rfl, rfl, rfl, rfl⟩, by norm_num, by norm_num, Nat.zero_lt_one,
    vtrace_truncation_bounds (VTrace.mk 0.9 2 1) [zRow 1, zRow 1] [zRow 1]
      [zRow 1] [zRow 1] ⟨rfl, rfl, rfl, rfl⟩ (by norm_num) (by norm_num)
      0 Nat.zero_lt_one 0⟩

/-! ### The loss aggregator of src/IMPALA.py -/

/-- Keyword names involved in the constructor call from Impala.__init__ to the
VTrace constructor, as a finite symbol set. -/
inductive Kwarg where
  | discount_factor
  | rho
  | cis
  | sequence_length
deriving DecidableEq

/-- The keyword parameters accepted by VTrace.__init__ (src/VTrace.py line 24):
discount_factor, rho and cis. -/
def vtraceInitParams : List Kwarg := [.discount_factor, .rho, .cis]

/-- The keyword arguments Impala.__init__ passes when constructing VTrace
(src/IMPALA.py lines 32-37): discount_factor, rho, cis and sequence_length. -/
def impalaVtraceCallKwargs : List Kwarg :=
  [.discount_factor, .rho, .cis, .sequence_length]

/-- A Python keyword call binds exactly when every passed keyword is among the
accepted parameter names; an unexpected keyword raises TypeError. -/
def kwargsBind (accepted passed : List Kwarg) : Bool :=
  passed.all (fun k => accepted.contains k)

/-- The Impala module of src/IMPALA.py: the configuration stored by
Impala.__init__ together with its inner VTrace instance.  The model object is
an external collaborator and is not a field of the embedding; the loss
operation takes the model outputs as inputs. -/
structure Impala where
  sequence_length : ℕ
  entropy_coef : ℝ
  value_coef : ℝ
  discount_factor : ℝ
  vtrace : VTrace

/-- Impala.__init__ (src/IMPALA.py lines 18-38): stores the coefficients, then
constructs the inner VTrace module passing the keywords discount_factor, rho,
cis and sequence_length.  Keyword binding of that Python call is checked
first; were it to bind, the VTrace constructor would run its own
configuration assertion.  The torch.jit.script wrapper and the device moves
preserve values and are not modelled. -/
noncomputable def Impala.init (sequence_length : ℕ)
    (entropy_coef value_coef discount_factor rho cis : ℝ) :
    Except PyError Impala :=
  if kwargsBind vtraceInitParams impalaVtraceCallKwargs then
    (VTrace.init discount_factor rho cis).map
      (fun v => ⟨sequence_length, entropy_coef, value_coef, discount_factor, v⟩)
  else .error .typeError

/-- Pointwise combination of three equally long lists, the shape of the
elementwise torch expressions over three tensors. -/
def zip3 {α β γ δ : Type} (f : α → β → γ → δ) :
    List α → List β → List γ → List δ
  | a :: as, b :: bs, c :: cs => f a b c :: zip3 f as bs cs
  | _, _, _ => []

/-- Sum of one batch row. -/
noncomputable def rowSum {B : ℕ} (r : Row B) : ℝ := ∑ b, r b

/-- The torch .sum() reduction over a (time, batch) tensor. -/
noncomputable def tensorSum {B : ℕ} (x : Tensor B) : ℝ := (x.map rowSum).sum

/-- Lines 100-101 of src/IMPALA.py: (v_targets - target_value).pow_(2)
followed by .sum(). -/
noncomputable def lossValueOf {B : ℕ} (vt tv : Tensor B) : ℝ :=
  tensorSum (List.zipWith (fun a c => fun b => (a b - c b) ^ 2) vt tv)

/-- Line 108 of src/IMPALA.py: advantage = rewards + discount_factor *
v_targets[1:] - target_value[:-1], elementwise over time and batch. -/
noncomputable def advantageOf {B : ℕ} (γ : ℝ) (rw vt tv : Tensor B) : Tensor B :=
  zip3 (fun r v c => fun b => r b + γ * v b - c b) rw vt.tail tv.dropLast

/-- Lines 109-110 of src/IMPALA.py: (- rhos * target_log_probs[:-1] *
advantage).sum(). -/
noncomputable def lossPolicyOf {B : ℕ} (rhos tlp adv : Tensor B) : ℝ :=
  tensorSum (zip3 (fun p l a => fun b => -(p b * l b * a b)) rhos tlp adv)

/-- Impala.loss (src/IMPALA.py lines 80-125).  The model forward pass is an
external collaborator, so its outputs target_log_probs, target_entropy and
target_value over the T+1 steps are inputs here, together with the leading
time dimension of the observations tensor, the rewards and the behaviour
log-probs.  Line 80 asserts obs.size(0) == sequence_length + 1, the
ShapeMismatch of the design taxonomy; then the VTrace module runs on
target_value, rewards, target_log_probs[:-1] and behaviour_log_probs, and the
total is loss_policy + value_coef * loss_value - entropy_coef * entropy with
entropy the sum of target_entropy[:-1]. -/
noncomputable def Impala.loss {B : ℕ} (m : Impala) (obsLen : ℕ)
    (target_log_probs target_entropy target_value rewards behaviour_log_probs :
      Tensor B) : Except PyError ℝ :=
  if obsLen = m.sequence_length + 1 then
    (m.vtrace.forwardE target_value rewards target_log_probs.dropLast
        behaviour_log_probs).map
      (fun q =>
        lossPolicyOf q.2 target_log_probs.dropLast
            (advantageOf m.discount_factor rewards q.1 target_value)
          + m.value_coef * lossValueOf q.1 target_value
          - m.entropy_coef * tensorSum target_entropy.dropLast)
  else .error .shapeMismatch

/-! ### Summation and slicing lemmas -/

theorem tensorSum_eq {B : ℕ} :
    ∀ (x : Tensor B),
      tensorSum x = ∑ i ∈ Finset.range x.length, rowSum (x.getD i (zRow B))
  | [] => by simp [tensorSum]
  | a :: xs => by
      have ih := tensorSum_eq xs
      simp only [List.length_cons]
      rw [Finset.sum_range_succ']
      simp only [List.getD_cons_succ, List.getD_cons_zero]
      rw [tensorSum, List.map_cons, List.sum_cons, ← tensorSum, ih]
      ring

theorem length_zip3 {α β γ δ : Type} (f : α → β → γ → δ) :
    ∀ (x : List α) (y : List β) (w : List γ),
      (zip3 f x y w).length = min x.length (min y.length w.length)
  | [], y, w => by cases y <;> cases w <;> simp [zip3]
  | a :: as, [], w => by cases w <;> simp [zip3]
  | a :: as, b :: bs, [] => by simp [zip3]
  | a :: as, b :: bs, c :: cs => by
      simp only [zip3, List.length_cons, length_zip3 f as bs cs]
      omega

theorem getD_zip3 {α β γ δ : Type} (f : α → β → γ → δ)
    (da : α) (db : β) (dc : γ) (dd : δ) :
    ∀ (x : List α) (y : List β) (w : List γ) (i : ℕ),
      i < x.length → i < y.length → i < w.length →
      (zip3 f x y w).getD i dd = f (x.getD i da) (y.getD i db) (w.getD i dc)
  | [], _, _, i, hx, _, _ => absurd hx (by simp)
  | a :: as, [], _, i, _, hy, _ => absurd hy (by simp)
  | a :: as, b :: bs, [], i, _, _, hw => absurd hw (by simp)
  | a :: as, b :: bs, c :: cs, 0, _, _, _ => rfl
  | a :: as, b :: bs, c :: cs, i + 1, hx, hy, hw => by
      simpa [zip3] using getD_zip3 f da db dc dd as bs cs i
        (Nat.lt_of_succ_lt_succ hx) (Nat.lt_of_succ_lt_succ hy)
        (Nat.lt_of_succ_lt_succ hw)

theorem forward_fst_length {B : ℕ} (m : VTrace) (tv rw tl bl : Tensor B) :
    (m.forward tv rw tl bl).1.length = tv.length :=
  vtraceRec_length m.discount_factor tv rw _ _

theorem forward_snd_length {B : ℕ} (m : VTrace) (tv rw tl bl : Tensor B) :
    (m.forward tv rw tl bl).2.length = min tl.length bl.length := by
  simp [VTrace.forward, truncate, importanceSampling, List.length_zipWith]

theorem lossValueOf_indexed {B n : ℕ} (vt tv : Tensor B)
    (h1 : vt.length = n) (h2 : tv.length = n) :
    lossValueOf vt tv
      = ∑ i ∈ Finset.range n, ∑ b,
          (vt.getD i (zRow B) b - tv.getD i (zRow B) b) ^ 2 := by
  rw [lossValueOf, tensorSum_eq]
  rw [show (List.zipWith (fun a c => fun b => (a b - c b) ^ 2) vt tv).length = n by
    simp [List.length_zipWith, h1, h2]]
  refine Finset.sum_congr rfl fun i hi => ?_
  have hi' := Finset.mem_range.mp hi
  rw [getD_zipWith _ _ _ _ _ (by omega) (by omega), rowSum]

theorem lossPolicyOf_indexed {B n : ℕ} (p l a : Tensor B)
    (hp : p.length = n) (hl : l.length = n) (ha : a.length = n) :
    lossPolicyOf p l a
      = ∑ i ∈ Finset.range n, ∑ b,
          -(p.getD i (zRow B) b * l.getD i (zRow B) b * a.getD i (zRow B) b) := by
  rw [lossPolicyOf, tensorSum_eq]
  rw [show (zip3 (fun p' l' a' => fun b => -(p' b * l' b * a' b)) p l a).length = n by
    rw [length_zip3]; omega]
  refine Finset.sum_congr rfl fun i hi => ?_
  have hi' := Finset.mem_range.mp hi
  rw [getD_zip3 _ (zRow B) (zRow B) (zRow B) (zRow B) _ _ _ _ (by omega) (by omega)
    (by omega), rowSum]

theorem tensorSum_dropLast_indexed {B n : ℕ} (x : Tensor B)
    (h : x.length = n + 1) :
    tensorSum x.dropLast
      = ∑ i ∈ Finset.range n, ∑ b, x.getD i (zRow B) b := by
  rw [tensorSum_eq]
  rw [show x.dropLast.length = n by simp [List.length_dropLast, h]]
  refine Finset.sum_congr rfl fun i hi => ?_
  have hi' := Finset.mem_range.mp hi
  rw [getD_dropLast _ _ _ (by omega), rowSum]

theorem advantageOf_getD {B : ℕ} (γ : ℝ) (rw vt tv : Tensor B) (i : ℕ)
    (h1 : i < rw.length) (h2 : i + 1 < vt.length) (h3 : i < tv.length - 1) :
    (advantageOf γ rw vt tv).getD i (zRow B)
      = fun b => rw.getD i (zRow B) b + γ * vt.getD (i + 1) (zRow B) b
          - tv.getD i (zRow B) b := by
  rw [advantageOf, getD_zip3 _ (zRow B) (zRow B) (zRow B) (zRow B) _ _ _ _ h1
    (by simp [List.length_tail]; omega) (by simp [List.length_dropLast]; omega)]
  funext b
  rw [getD_tail, getD_dropLast _ _ _ h3]

/-- C5: the scalar total loss returned by Impala.loss equals
policy_loss + value_coef * value_loss - entropy_coef * entropy, where the
policy loss sums -rho[i] * target_log_probs[i] * advantage[i] over the T
non-bootstrap steps with advantage[i] = rewards[i] + discount_factor *
v_targets[i+1] - target_value[i], and the entropy term sums
target_entropy[i] over the same steps. -/
theorem impala_total_loss_formula (m : Impala) {B T : ℕ}
    (tlp ent tv rw blp : Tensor B)
    (hseq : m.sequence_length = T)
    (htlp : tlp.length = T + 1) (hent : ent.length = T + 1)
    (htv : tv.length = T + 1) (hrw : rw.length = T) (hblp : blp.length = T) :
    m.loss (T + 1) tlp ent tv rw blp
      = .ok ((∑ i ∈ Finset.range T, ∑ b,
            -((m.vtrace.forward tv rw tlp.dropLast blp).2.getD i (zRow B) b
                * tlp.getD i (zRow B) b
                * (rw.getD i (zRow B) b
                    + m.discount_factor
                      * (m.vtrace.forward tv rw tlp.dropLast blp).1.getD (i + 1)
                          (zRow B) b
                    - tv.getD i (zRow B) b)))
          + m.value_coef * (∑ i ∈ Finset.range (T + 1), ∑ b,
              ((m.vtrace.forward tv rw tlp.dropLast blp).1.getD i (zRow B) b
                - tv.getD i (zRow B) b) ^ 2)
          - m.entropy_coef * (∑ i ∈ Finset.range T, ∑ b,
              ent.getD i (zRow B) b)) := by
  have hdl : tlp.dropLast.length = T := by simp [htlp]
  have hvt1 : (m.vtrace.forward tv rw tlp.dropLast blp).1.length = T + 1 := by
    rw [forward_fst_length, htv]
  have hvt2 : (m.vtrace.forward tv rw tlp.dropLast blp).2.length = T := by
    rw [forward_snd_length, hdl, hblp]; omega
  have hadv : (advantageOf m.discount_factor rw
      (m.vtrace.forward tv rw tlp.dropLast blp).1 tv).length = T := by
    rw [advantageOf, length_zip3, List.length_tail, List.length_dropLast,
      hvt1, htv, hrw]
    omega
  rw [Impala.loss, if_pos (by rw [hseq])]
  rw [VTrace.forwardE, if_pos ⟨by rw [hdl, hblp], by rw [htv]; omega,
    by rw [htv, hrw]; omega, by rw [htv, hdl]; omega⟩]
  simp only [Except.map, Except.ok.injEq]
  rw [lossValueOf_indexed _ _ hvt1 htv]
  rw [tensorSum_dropLast_indexed ent hent]
  rw [lossPolicyOf_indexed _ _ _ hvt2 hdl hadv]
  have hpol : ∀ i ∈ Finset.range T,
      (∑ b, -((m.vtrace.forward tv rw tlp.dropLast blp).2.getD i (zRow B) b
          * tlp.dropLast.getD i (zRow B) b
          * (advantageOf m.discount_factor rw
              (m.vtrace.forward tv rw tlp.dropLast blp).1 tv).getD i (zRow B) b))
        = ∑ b, -((m.vtrace.forward tv rw tlp.dropLast blp).2.getD i (zRow B) b
            * tlp.getD i (zRow B) b
            * (rw.getD i (zRow B) b
                + m.discount_factor
                  * (m.vtrace.forward tv rw tlp.dropLast blp).1.getD (i + 1)
                      (zRow B) b
                - tv.getD i (zRow B) b)) := by
    intro i hi
    have hi' := Finset.mem_range.mp hi
    refine Finset.sum_congr rfl fun b _ => ?_
    rw [getD_dropLast tlp (zRow B) i (by rw [htlp]; omega),
      advantageOf_getD m.discount_factor rw _ tv i (by rw [hrw]; omega)
        (by rw [hvt1]; omega) (by rw [htv]; omega)]
  rw [Finset.sum_congr rfl hpol]

/-- Concrete instance of the C5 theorem at T = 1, B = 1 with all-zero inputs. -/
theorem impala_total_loss_formula_witness :
    (Impala.mk 1 0.5 0.5 0.9 (VTrace.mk 0.9 1 1)).sequence_length = 1
    ∧ ([zRow 1, zRow 1] : Tensor 1).length = 1 + 1
    ∧ ([zRow 1, zRow 1] : Tensor 1).length = 1 + 1
    ∧ ([zRow 1, zRow 1] : Tensor 1).length = 1 + 1
    ∧ ([zRow 1] : Tensor 1).length = 1
    ∧ ([zRow 1] : Tensor 1).length = 1
    ∧ (Impala.mk 1 0.5 0.5 0.9 (VTrace.mk 0.9 1 1)).loss (1 + 1)
        [zRow 1, zRow 1] [zRow 1, zRow 1] [zRow 1, zRow 1] [zRow 1] [zRow 1]
      = .ok ((∑ i ∈ Finset.range 1, ∑ b,
            -(((Impala.mk 1 0.5 0.5 0.9 (VTrace.mk 0.9 1 1)).vtrace.forward
                  [zRow 1, zRow 1] [zRow 1]
                  ([zRow 1, zRow 1] : Tensor 1).dropLast [zRow 1]).2.getD i
                  (zRow 1) b
                * ([zRow 1, zRow 1] : Tensor 1).getD i (zRow 1) b
                * (([zRow 1] : Tensor 1).getD i (zRow 1) b
                    + (Impala.mk 1 0.5 0.5 0.9 (VTrace.mk 0.9 1 1)).discount_factor
                      * ((Impala.mk 1 0.5 0.5 0.9 (VTrace.mk 0.9 1 1)).vtrace.forward
                          [zRow 1, zRow 1] [zRow 1]
                          ([zRow 1, zRow 1] : Tensor 1).dropLast
                          [zRow 1]).1.getD (i + 1) (zRow 1) b
                    - ([zRow 1, zRow 1] : Tensor 1).getD i (zRow 1) b)))
          + (Impala.mk 1 0.5 0.5 0.9 (VTrace.mk 0.9 1 1)).value_coef
            * (∑ i ∈ Finset.range (1 + 1), ∑ b,
              (((Impala.mk 1 0.5 0.5 0.9 (VTrace.mk 0.9 1 1)).vtrace.forward
                  [zRow 1, zRow 1] [zRow 1]
                  ([zRow 1, zRow 1] : Tensor 1).dropLast [zRow 1]).1.getD i
                  (zRow 1) b
                - ([zRow 1, zRow 1] : Tensor 1).getD i (zRow 1) b) ^ 2)
          - (Impala.mk 1 0.5 0.5 0.9 (VTrace.mk 0.9 1 1)).entropy_coef
            * (∑ i ∈ Finset.range 1, ∑ b,
              ([zRow 1, zRow 1] : Tensor 1).getD i (zRow 1) b)) :=
  ⟨rfl, rfl, rfl, rfl, rfl, rfl,
    impala_total_loss_formula (Impala.mk 1 0.5 0.5 0.9 (VTrace.mk 0.9 1 1))
      [zRow 1, zRow 1] [zRow 1, zRow 1] [zRow 1, zRow 1] [zRow 1] [zRow 1]
      rfl rfl rfl rfl rfl rfl⟩

/-- C6: the value loss computed by the loss aggregator equals the sum of
(v_targets - target_value)^2 over all T+1 time steps and all batch elements,
and the contribution of the bootstrap index T to this sum is exactly 0. -/
theorem impala_value_loss_bootstrap (m : Impala) {B T : ℕ}
    (tlp tv rw blp : Tensor B)
    (htlp : tlp.length = T + 1) (htv : tv.length = T + 1)
    (hrw : rw.length = T) (hblp : blp.length = T) :
    lossValueOf (m.vtrace.forward tv rw tlp.dropLast blp).1 tv
      = (∑ i ∈ Finset.range (T + 1), ∑ b,
          ((m.vtrace.forward tv rw tlp.dropLast blp).1.getD i (zRow B) b
            - tv.getD i (zRow B) b) ^ 2)
    ∧ (∑ b, ((m.vtrace.forward tv rw tlp.dropLast blp).1.getD T (zRow B) b
          - tv.getD T (zRow B) b) ^ 2) = 0 := by
  have hvt1 : (m.vtrace.forward tv rw tlp.dropLast blp).1.length = T + 1 := by
    rw [forward_fst_length, htv]
  refine ⟨lossValueOf_indexed _ _ hvt1 htv, ?_⟩
  have e1 : (m.vtrace.forward tv rw tlp.dropLast blp).1
      = vtraceRec m.vtrace.discount_factor tv rw
          (truncate m.vtrace.rho (importanceSampling tlp.dropLast blp))
          (truncate m.vtrace.cis (importanceSampling tlp.dropLast blp)) := rfl
  have hlast := vtraceRec_getD_last m.vtrace.discount_factor tv rw
    (truncate m.vtrace.rho (importanceSampling tlp.dropLast blp))
    (truncate m.vtrace.cis (importanceSampling tlp.dropLast blp)) (by omega)
  rw [hrw] at hlast
  rw [e1, hlast]
  simp

/-- Concrete instance of the C6 theorem at T = 1, B = 1. -/
theorem impala_value_loss_bootstrap_witness :
    ([zRow 1, zRow 1] : Tensor 1).length = 1 + 1
    ∧ ([zRow 1, fun _ => (2:ℝ)] : Tensor 1).length = 1 + 1
    ∧ ([zRow 1] : Tensor 1).length = 1
    ∧ ([zRow 1] : Tensor 1).length = 1
    ∧ (lossValueOf ((Impala.mk 1 0.5 0.5 0.9 (VTrace.mk 0.9 1 1)).vtrace.forward
          [zRow 1, fun _ => (2:ℝ)] [zRow 1]
          ([zRow 1, zRow 1] : Tensor 1).dropLast [zRow 1]).1
          [zRow 1, fun _ => (2:ℝ)]
        = (∑ i ∈ Finset.range (1 + 1), ∑ b,
            (((Impala.mk 1 0.5 0.5 0.9 (VTrace.mk 0.9 1 1)).vtrace.forward
                [zRow 1, fun _ => (2:ℝ)] [zRow 1]
                ([zRow 1, zRow 1] : Tensor 1).dropLast [zRow 1]).1.getD i
                (zRow 1) b
              - ([zRow 1, fun _ => (2:ℝ)] : Tensor 1).getD i (zRow 1) b) ^ 2)
      ∧ (∑ b, (((Impala.mk 1 0.5 0.5 0.9 (VTrace.mk 0.9 1 1)).vtrace.forward
              [zRow 1, fun _ => (2:ℝ)] [zRow 1]
              ([zRow 1, zRow 1] : Tensor 1).dropLast [zRow 1]).1.getD 1
              (zRow 1) b
            - ([zRow 1, fun _ => (2:ℝ)] : Tensor 1).getD 1 (zRow 1) b) ^ 2) = 0) :=
  ⟨rfl, rfl, rfl, rfl,
    impala_value_loss_bootstrap (Impala.mk 1 0.5 0.5 0.9 (VTrace.mk 0.9 1 1))
      [zRow 1, zRow 1] [zRow 1, fun _ => (2:ℝ)] [zRow 1] [zRow 1]
      rfl rfl rfl rfl⟩

/-- C8: constructing the V-trace estimator with rho_bar < cis_bar fails with
a ConfigurationError, and construction with rho_bar >= cis_bar passes the
check and stores the three scalars; the invariant is checked only here, at
construction. -/
theorem vtrace_construction_check (discount_factor rho cis : ℝ) :
    (rho < cis →
      VTrace.init discount_factor rho cis = .error .configurationError)
    ∧ (rho ≥ cis →
      VTrace.init discount_factor rho cis = .ok ⟨discount_factor, rho, cis⟩) := by
  constructor
  · intro hlt
    rw [VTrace.init, if_neg (not_le.mpr hlt)]
  · intro hge
    rw [VTrace.init, if_pos hge]

/-- Concrete instances of both branches of the C8 theorem. -/
theorem vtrace_construction_check_witness :
    ((0.5:ℝ) < 1
      ∧ VTrace.init 0.9 0.5 1 = .error .configurationError)
    ∧ ((2:ℝ) ≥ 1
      ∧ VTrace.init 0.9 2 1 = .ok ⟨0.9, 2, 1⟩) :=
  ⟨⟨by norm_num, (vtrace_construction_check 0.9 0.5 1).1 (by norm_num)⟩,
    ⟨by norm_num, (vtrace_construction_check 0.9 2 1).2 (by norm_num)⟩⟩

/-- C10: for every configuration, constructing the loss aggregator fails with
a TypeError before any loss computation is possible, because Impala.__init__
passes the keyword sequence_length to the VTrace constructor, whose parameter
list accepts only discount_factor, rho and cis. -/
theorem impala_init_type_error (sequence_length : ℕ)
    (entropy_coef value_coef discount_factor rho cis : ℝ) :
    Impala.init sequence_length entropy_coef value_coef discount_factor rho cis
      = .error .typeError := by
  rw [Impala.init, if_neg (by decide)]

/-- C7 counterexample: a concrete malformed call of the V-trace compute that
does not fail.  The four inputs disagree on T: target_value has two time
steps, so T = 1, while rewards and both log-policies have two time steps
each, announcing T = 2.  The source performs no shape validation, the loop
bound is taken from target_value alone and the extra trailing entries are
never read, so the call succeeds instead of failing with ShapeMismatch. -/
theorem vtrace_malformed_shapes_no_error :
    VTrace.forwardE (VTrace.mk 0.9 1 1) [zRow 1, zRow 1] [zRow 1, zRow 1]
        [zRow 1, zRow 1] [zRow 1, zRow 1]
      ≠ Except.error PyError.shapeMismatch := by
  rw [VTrace.forwardE, if_pos ⟨rfl, by simp, by simp, by simp⟩]
  simp

/-- C7 amended: the leading-dimension assertion of compute_loss fails with
ShapeMismatch whenever the observations carry a different number of time
steps than sequence_length + 1; the V-trace compute performs no up-front
validation and fails exactly when its execution hits an inconsistency
(differing log-policy lengths, an empty target_value, or rewards or
log-policies with fewer than the T entries implied by target_value), while
every other input combination, including over-long mismatched ones,
succeeds. -/
theorem impala_shape_checks (m : Impala) {B : ℕ}
    (tlp ent tv rw blp : Tensor B) (obsLen : ℕ)
    (tv2 rw2 tl2 bl2 : Tensor B) :
    (obsLen ≠ m.sequence_length + 1 →
      m.loss obsLen tlp ent tv rw blp = .error .shapeMismatch)
    ∧ (¬(tl2.length = bl2.length ∧ 0 < tv2.length
          ∧ tv2.length - 1 ≤ rw2.length ∧ tv2.length - 1 ≤ tl2.length) →
        m.vtrace.forwardE tv2 rw2 tl2 bl2 = .error .shapeMismatch)
    ∧ ((tl2.length = bl2.length ∧ 0 < tv2.length
          ∧ tv2.length - 1 ≤ rw2.length ∧ tv2.length - 1 ≤ tl2.length) →
        m.vtrace.forwardE tv2 rw2 tl2 bl2
          = .ok (m.vtrace.forward tv2 rw2 tl2 bl2)) := by
  refine ⟨fun hne => ?_, fun hbad => ?_, fun hok => ?_⟩
  · rw [Impala.loss, if_neg hne]
  · rw [VTrace.forwardE, if_neg hbad]
  · rw [VTrace.forwardE, if_pos hok]

/-- Concrete instances of all three branches of the amended C7 theorem. -/
theorem impala_shape_checks_witness :
    ((5:ℕ) ≠ (Impala.mk 3 0.5 0.5 0.9 (VTrace.mk 0.9 1 1)).sequence_length + 1
      ∧ (Impala.mk 3 0.5 0.5 0.9 (VTrace.mk 0.9 1 1)).loss 5
          ([] : Tensor 1) [] [] [] [] = .error .shapeMismatch)
    ∧ (¬(([zRow 1] : Tensor 1).length = ([] : Tensor 1).length
          ∧ 0 < ([zRow 1, zRow 1] : Tensor 1).length
          ∧ ([zRow 1, zRow 1] : Tensor 1).length - 1 ≤ ([zRow 1] : Tensor 1).length
          ∧ ([zRow 1, zRow 1] : Tensor 1).length - 1 ≤ ([zRow 1] : Tensor 1).length)
      ∧ (Impala.mk 3 0.5 0.5 0.9 (VTrace.mk 0.9 1 1)).vtrace.forwardE
          [zRow 1, zRow 1] [zRow 1] [zRow 1] ([] : Tensor 1)
          = .error .shapeMismatch)
    ∧ ((([zRow 1] : Tensor 1).length = ([zRow 1] : Tensor 1).length
          ∧ 0 < ([zRow 1, zRow 1] : Tensor 1).length
          ∧ ([zRow 1, zRow 1] : Tensor 1).length - 1 ≤ ([zRow 1] : Tensor 1).length
          ∧ ([zRow 1, zRow 1] : Tensor 1).length - 1 ≤ ([zRow 1] : Tensor 1).length)
      ∧ (Impala.mk 3 0.5 0.5 0.9 (VTrace.mk 0.9 1 1)).vtrace.forwardE
          [zRow 1, zRow 1] [zRow 1] [zRow 1] [zRow 1]
          = .ok ((Impala.mk 3 0.5 0.5 0.9 (VTrace.mk 0.9 1 1)).vtrace.forward
              [zRow 1, zRow 1] [zRow 1] [zRow 1] [zRow 1])) :=
  ⟨⟨by decide,
      (impala_shape_checks (Impala.mk 3 0.5 0.5 0.9 (VTrace.mk 0.9 1 1))
        ([] : Tensor 1) [] [] [] [] 5 [] [] [] []).1 (by decide)⟩,
    ⟨by simp,
      (impala_shape_checks (Impala.mk 3 0.5 0.5 0.9 (VTrace.mk 0.9 1 1))
        ([] : Tensor 1) [] [] [] [] 5 [zRow 1, zRow 1] [zRow 1] [zRow 1]
        ([] : Tensor 1)).2.1 (by simp)⟩,
    ⟨by simp,
      (impala_shape_checks (Impala.mk 3 0.5 0.5 0.9 (VTrace.mk 0.9 1 1))
        ([] : Tensor 1) [] [] [] [] 5 [zRow 1, zRow 1] [zRow 1] [zRow 1]
        [zRow 1]).2.2 (by simp)⟩⟩

/-! ### Gradient-flow model

Forward-mode automatic differentiation along one direction of the model
parameter space: a Dual carries a value and the directional derivative of
that value with respect to the parameters.  The model outputs
target_log_probs, target_entropy and target_value are parameter-dependent, so
they enter the loss as dual tensors; rewards and behaviour log-probs are
recorded data with no parameter dependence.  The detach and detach_ calls of
the source zero the derivative component while keeping the value. -/

structure Dual where
  val : ℝ
  grad : ℝ

noncomputable instance : Add Dual :=
  ⟨fun a b => ⟨a.val + b.val, a.grad + b.grad⟩⟩

noncomputable instance : Mul Dual :=
  ⟨fun a b => ⟨a.val * b.val, a.val * b.grad + a.grad * b.val⟩⟩

noncomputable instance : Neg Dual :=
  ⟨fun a => ⟨-a.val, -a.grad⟩⟩

noncomputable instance : Sub Dual :=
  ⟨fun a b => ⟨a.val - b.val, a.grad - b.grad⟩⟩

/-- A parameter-independent scalar as a dual number. -/
def Dual.const (c : ℝ) : Dual := ⟨c, 0⟩

/-- The stop-gradient operation: keep the value, zero the derivative. -/
def Dual.detach (a : Dual) : Dual := ⟨a.val, 0⟩

/-- One time step of a dual-valued (time, batch) tensor. -/
abbrev DRow (B : ℕ) : Type := Fin B → Dual

/-- A dual-valued (time, batch) tensor. -/
abbrev DTensor (B : ℕ) : Type := List (DRow B)

/-- Value components of a dual tensor. -/
noncomputable def dVal {B : ℕ} (x : DTensor B) : Tensor B :=
  x.map (fun r => fun b => (r b).val)

/-- Derivative components of a dual tensor. -/
noncomputable def dGrad {B : ℕ} (x : DTensor B) : Tensor B :=
  x.map (fun r => fun b => (r b).grad)

/-- A parameter-independent tensor injected as a dual tensor. -/
noncomputable def constT {B : ℕ} (x : Tensor B) : DTensor B :=
  x.map (fun r => fun b => Dual.const (r b))

/-- Elementwise stop-gradient over a dual tensor, the tensor-level detach. -/
noncomputable def detachT {B : ℕ} (x : DTensor B) : DTensor B :=
  x.map (fun r => fun b => (r b).detach)

/-- The torch .sum() reduction on a dual tensor; summation is linear, so the
derivative of the sum is the sum of the derivatives. -/
noncomputable def dTensorSum {B : ℕ} (x : DTensor B) : Dual :=
  ⟨tensorSum (dVal x), tensorSum (dGrad x)⟩

/-- The total loss of Impala.loss (src/IMPALA.py lines 100-117) under
forward-mode differentiation, with the stop-gradient boundaries exactly where
the source places them: the V-trace outputs are computed from the value
components and returned detached (detach_ on line 78 of src/VTrace.py), so
they re-enter as constants, and the advantage built on line 108 from rewards,
the detached v_targets[1:] and the live target_value[:-1] is itself detached
before entering the policy loss (line 109).  Squaring is modelled as
self-multiplication. -/
noncomputable def Impala.lossD {B : ℕ} (m : Impala)
    (tlp ent tv : DTensor B) (rw blp : Tensor B) : Dual :=
  dTensorSum (zip3 (fun p l a => fun b => -(p b * l b * a b))
      (constT (m.vtrace.forward (dVal tv) rw (dVal tlp.dropLast) blp).2)
      tlp.dropLast
      (detachT (zip3 (fun (r : Row B) (v c : DRow B) => fun b =>
          Dual.const (r b) + Dual.const m.discount_factor * v b - c b)
        rw
        (constT (m.vtrace.forward (dVal tv) rw (dVal tlp.dropLast) blp).1).tail
        tv.dropLast)))
    + Dual.const m.value_coef
      * dTensorSum (List.zipWith (fun a c => fun b => (a b - c b) * (a b - c b))
          (constT (m.vtrace.forward (dVal tv) rw (dVal tlp.dropLast) blp).1) tv)
    - Dual.const m.entropy_coef * dTensorSum ent.dropLast

/-- The same total loss with v_targets, rhos and advantage supplied as fixed
parameter-independent tensors, following the wording of the gradient
isolation property. -/
noncomputable def Impala.lossDConst {B : ℕ} (m : Impala)
    (tlp ent tv : DTensor B) (vt rhos adv : Tensor B) : Dual :=
  dTensorSum (zip3 (fun p l a => fun b => -(p b * l b * a b))
      (constT rhos) tlp.dropLast (constT adv))
    + Dual.const m.value_coef
      * dTensorSum (List.zipWith (fun a c => fun b => (a b - c b) * (a b - c b))
          (constT vt) tv)
    - Dual.const m.entropy_coef * dTensorSum ent.dropLast

theorem constT_tail {B : ℕ} (x : Tensor B) : (constT x).tail = constT x.tail := by
  cases x <;> rfl

theorem dVal_dropLast {B : ℕ} (x : DTensor B) :
    (dVal x).dropLast = dVal x.dropLast := by
  simp [dVal, List.map_dropLast]

/-- Detaching the advantage built from constant rewards, constant v_targets
and live target_value yields the constant injection of the real-valued
advantage. -/
theorem detachT_advantage {B : ℕ} (γ : ℝ) :
    ∀ (rw vt : Tensor B) (tvd : DTensor B),
      detachT (zip3 (fun (r : Row B) (v c : DRow B) => fun b =>
          Dual.const (r b) + Dual.const γ * v b - c b) rw (constT vt) tvd)
        = constT (zip3 (fun r v c => fun b => r b + γ * v b - c b)
            rw vt (dVal tvd))
  | [], vt, tvd => by cases vt <;> cases tvd <;> rfl
  | r :: rws, [], tvd => by cases tvd <;> rfl
  | r :: rws, v :: vts, [] => rfl
  | r :: rws, v :: vts, c :: tvds => by
      have ih := detachT_advantage γ rws vts tvds
      simp only [constT, detachT, dVal, List.map_cons, zip3] at ih ⊢
      refine congrArg₂ List.cons ?_ ih
      funext b
      rfl

/-- C9: gradient isolation.  The directional derivative of the total loss
with respect to the model parameters equals the one obtained when v_targets,
rhos and the advantage are replaced by fixed constants equal to their numeric
values: no gradient of the total loss flows into these detached quantities. -/
theorem loss_gradient_isolation (m : Impala) {B : ℕ}
    (tlp ent tv : DTensor B) (rw blp : Tensor B) :
    (m.lossD tlp ent tv rw blp).grad
      = (m.lossDConst tlp ent tv
          (m.vtrace.forward (dVal tv) rw (dVal tlp.dropLast) blp).1
          (m.vtrace.forward (dVal tv) rw (dVal tlp.dropLast) blp).2
          (advantageOf m.discount_factor rw
            (m.vtrace.forward (dVal tv) rw (dVal tlp.dropLast) blp).1
            (dVal tv))).grad := by
  rw [Impala.lossD, Impala.lossDConst, advantageOf, constT_tail,
    detachT_advantage m.discount_factor rw
      (m.vtrace.forward (dVal tv) rw (dVal tlp.dropLast) blp).1.tail tv.dropLast,
    dVal_dropLast]

end VTraceModel
